import Mathlib

set_option maxRecDepth 4000

namespace PPA

/-!  Shallow embedding of the coverage resolver of `src/backend.py`
(`ModelManager.find_matching_selles` and
`ModelManager._extract_teeth_from_selle_filename`).  Python string
primitives (`str.split`, `str.replace`, `int`, substring tests) are
modelled as executable functions on `List Char`; Python `set` becomes
`Finset Int`; a raised exception becomes `Option.none`. -/

/-- Python `str.split(sep)` for a one-character separator: split at every
occurrence, keeping empty pieces (so splitting the empty string yields one
empty piece). -/
def splitOnChar (sep : Char) : List Char → List (List Char)
  | [] => [[]]
  | c :: rest =>
    if c = sep then [] :: splitOnChar sep rest
    else
      match splitOnChar sep rest with
      | [] => [[c]]
      | t :: ts => (c :: t) :: ts

/-- Numeric value of a decimal digit character, `none` on a non-digit. -/
def digitVal (c : Char) : Option Nat :=
  if ( '0' ) ≤ c ∧ c ≤ ( '9' ) then some (c.toNat - ( '0' ).toNat) else none

/-- Accumulating decimal parser over a digit list; `none` on a non-digit. -/
def parseDigitsAux : Nat → List Char → Option Nat
  | acc, [] => some acc
  | acc, c :: rest =>
    match digitVal c with
    | some d => parseDigitsAux (acc * 10 + d) rest
    | none => none

/-- Python `int(s)` on a plain literal: optional sign then one or more
decimal digits; anything else raises, i.e. gives `none`. -/
def parseInt (s : List Char) : Option Int :=
  match s with
  | '-' :: rest =>
    if rest = [] then none else (parseDigitsAux 0 rest).map (fun n => -(n : Int))
  | '+' :: rest =>
    if rest = [] then none else (parseDigitsAux 0 rest).map (fun n => (n : Int))
  | _ =>
    if s = [] then none else (parseDigitsAux 0 s).map (fun n => (n : Int))

/-- Python `list(range(a, b + 1))`: the integers from `a` to `b` inclusive,
ascending; empty when `b < a`. -/
def intRange (a b : Int) : List Int :=
  (List.range (b + 1 - a).toNat).map (fun (i : Nat) => a + (i : Int))

/-- Python `s.replace(pat, '')` (remove every occurrence of `pat`,
left-to-right, non-overlapping), written with fuel so the kernel can
evaluate it; the fuel is always taken to be `s.length`. -/
def removeAllAux (pat : List Char) : Nat → List Char → List Char
  | _, [] => []
  | 0, s => s
  | fuel + 1, c :: rest =>
    if pat ≠ [] ∧ pat.isPrefixOf (c :: rest) then
      removeAllAux pat fuel ((c :: rest).drop pat.length)
    else
      c :: removeAllAux pat fuel rest

/-- Python `s.replace(pat, '')`. -/
def removeAll (pat s : List Char) : List Char :=
  removeAllAux pat s.length s

/-- Python substring test `pat in s`. -/
def occursIn (pat : List Char) : List Char → Bool
  | [] => decide (pat = [])
  | c :: rest => pat.isPrefixOf (c :: rest) || occursIn pat rest

def sellePat : List Char := "selle_".data

def pngPat : List Char := ".png".data

/-- The variable part of a saddle filename:
`filename.replace('selle_', '').replace('.png', '')`. -/
def baseName (s : List Char) : List Char :=
  removeAll pngPat (removeAll sellePat s)

/-- One token of a saddle name body: a bare integer, or an inclusive range
`a-b` expanded via `intRange`.  `none` models the `ValueError` raised by
`int` or by tuple unpacking in `_extract_teeth_from_selle_filename`. -/
def parsePart (part : List Char) : Option (List Int) :=
  if ( '-' ) ∈ part then
    match splitOnChar ( '-' ) part with
    | [a, b] =>
      match parseInt a, parseInt b with
      | some s, some e => some (intRange s e)
      | _, _ => none
    | _ => none
  else
    (parseInt part).map (fun n => [n])

/-- The `teeth` accumulator of `_extract_teeth_from_selle_filename`:
tokens are expanded in order and concatenated; the first bad token
aborts the whole parse. -/
def partsTeeth : List (List Char) → Option (List Int)
  | [] => some []
  | p :: rest =>
    match parsePart p, partsTeeth rest with
    | some l, some ls => some (l ++ ls)
    | _, _ => none

/-- `ModelManager._extract_teeth_from_selle_filename`: strip the
`selle_` / `.png` wrapper, split the body on `_`, expand every token.
`none` models a raised `ValueError`. -/
def extractTeeth (filename : List Char) : Option (List Int) :=
  partsTeeth (splitOnChar ( '_' ) (baseName filename))

/-- The filename filter of step 1 of `find_matching_selles`:
`filename.startswith('selle_') and filename.endswith('.png')`. -/
def wrappedB (f : String) : Bool :=
  sellePat.isPrefixOf f.data && pngPat.reverse.isPrefixOf f.data.reverse

/-- A catalog entry paired with its parsed span (`set(...)` in Python). -/
def parseEntry (f : String) : Option (String × Finset Int) :=
  (extractTeeth f.data).map (fun l => (f, l.toFinset))

/-- Parse every catalog entry, failing (propagating the exception) as soon
as one entry is unparsable — as the filter loop of step 2 does. -/
def collectParsed : List String → Option (List (String × Finset Int))
  | [] => some []
  | f :: rest =>
    match parseEntry f, collectParsed rest with
    | some p, some ps => some (p :: ps)
    | _, _ => none

/-- The span an element name denotes, as a set. -/
def parsedSpan (f : String) : Option (Finset Int) :=
  (extractTeeth f.data).map List.toFinset

/-- Spans of a list of element names, `none` if any fails to parse. -/
def spansOf : List String → Option (List (Finset Int))
  | [] => some []
  | f :: rest =>
    match parsedSpan f, spansOf rest with
    | some s, some ss => some (s :: ss)
    | _, _ => none

/-- Union of a list of spans. -/
def foldUnion (ss : List (Finset Int)) : Finset Int :=
  ss.foldr (fun s acc => s ∪ acc) ∅

/-- The fixed denylist `invalid_patterns` of step 5. -/
def invalidPatterns : List (List Char) :=
  ["11-17_21", "11-17_21-22", "21-27_11", "21-27_11-12"].map String.data

/-- Whether a chosen name trips the denylist: some `invalid` pattern is a
substring of `match.replace('selle_', '').replace('.png', '')`. -/
def deniedName (g : String) : Bool :=
  invalidPatterns.any (fun pat => occursIn pat (baseName g.data))

/-- One pass of the inner greedy loop of step 4: scan the valid candidates
in order, skip ones already used, and keep the first candidate that covers
strictly more new teeth than the best so far (starting from 0, so a
candidate is only ever selected with positive new coverage). -/
def pickBest (pairs : List (String × Finset Int)) (chosenNames : List String)
    (covered : Finset Int) : Option (String × Finset Int) × Nat :=
  pairs.foldl
    (fun acc p =>
      if p.1 ∈ chosenNames then acc
      else if acc.2 < (p.2 \ covered).card then (some p, (p.2 \ covered).card)
      else acc)
    (none, 0)

/-- The outer greedy loop of step 4 (`while len(covered_teeth) <
len(hidden_teeth)`), with fuel; the caller passes fuel `valid.length + 1`,
which the Python loop can never exhaust since every iteration either
breaks or consumes one fresh candidate. -/
def greedyLoop (hiddenLen : Nat) (valid : List (String × Finset Int)) :
    Nat → List (String × Finset Int) → Finset Int → List (String × Finset Int)
  | 0, chosen, _ => chosen
  | fuel + 1, chosen, covered =>
    if covered.card < hiddenLen then
      match (pickBest valid (chosen.map Prod.fst) covered).1 with
      | some p => greedyLoop hiddenLen valid fuel (chosen ++ [p]) (covered ∪ p.2)
      | none => chosen
    else chosen

/-- The subset filter of step 2: keep the candidates whose span only
covers hidden teeth (`teeth_in_file <= hidden_teeth_set`). -/
def validCandidates (hiddenSet : Finset Int)
    (parsed : List (String × Finset Int)) : List (String × Finset Int) :=
  parsed.filter (fun p => decide (p.2 ⊆ hiddenSet))

/-- Step 4 as run by `find_matching_selles`: the greedy loop started from
an empty selection with ample fuel. -/
def greedyResult (hiddenLen : Nat)
    (valid : List (String × Finset Int)) : List (String × Finset Int) :=
  greedyLoop hiddenLen valid (valid.length + 1) [] ∅

/-- Step 5, the final validation: reject outright (empty result) when
nothing was chosen, when at most two teeth would remain present, when a
chosen name trips the denylist, or when coverage is not exact. -/
def validityGate (rosterLen : Nat) (hiddenSet : Finset Int)
    (chosen : List (String × Finset Int)) : List String :=
  if chosen = [] then [] else
  if (rosterLen : Int) - (hiddenSet.card : Int) ≤ 2 then []
  else if chosen.any (fun p => deniedName p.1) then []
  else if foldUnion (chosen.map Prod.snd) = hiddenSet ∧
      foldUnion (chosen.map Prod.snd) \ hiddenSet = ∅ then
    chosen.map Prod.fst
  else []

/-- `ModelManager.find_matching_selles`.  `roster` is
`current_model['teeth']` (only its length is used), `hidden_teeth` the
absent list, `available` the directory listing; `none` models a raised
exception, `some r` a normal return of `r`. -/
def find_matching_selles (roster : List Int) (hidden_teeth : List Int)
    (available : List String) : Option (List String) :=
  if hidden_teeth = [] then some [] else
  match collectParsed (available.filter wrappedB) with
  | none => none
  | some parsed =>
    let hiddenSet := hidden_teeth.toFinset
    let valid_selles := validCandidates hiddenSet parsed
    match valid_selles.find? (fun p => decide (p.2 = hiddenSet)) with
    | some p => some [p.1]
    | none =>
      some (validityGate roster.length hiddenSet
        (greedyResult hidden_teeth.length valid_selles))

/-- The lower-arch roster `models['arcade_inf']['teeth']` (as tooth
numbers; the resolver only uses its length, 14). -/
def rosterInf : List Int :=
  [31, 32, 33, 34, 35, 36, 37, 41, 42, 43, 44, 45, 46, 47]

/-- The upper-arch roster `models['arcade_sup']['teeth']`. -/
def rosterSup : List Int :=
  [11, 12, 13, 14, 15, 16, 17, 21, 22, 23, 24, 25, 26, 27]

/-! Spec-side grammar of span-describing names (§4.1 of the spec): a body
of delimiter-joined tokens, each a single two-digit tooth number or an
inclusive hyphen range.  These definitions express the *intended* set a
name denotes, to be compared with what `extractTeeth` parses. -/

/-- The character of a decimal digit. -/
def digitChar (d : Nat) : Char := Char.ofNat (48 + d)

/-- The two-character decimal form of a two-digit number. -/
def twoDigitChars (n : Nat) : List Char := [digitChar (n / 10), digitChar (n % 10)]

/-- A token of a span-describing name body. -/
inductive SpanToken : Type where
  | single : Nat → SpanToken
  | rng : Nat → Nat → SpanToken
deriving DecidableEq

/-- The characters a token is written with. -/
def tokenChars : SpanToken → List Char
  | .single n => twoDigitChars n
  | .rng a b => twoDigitChars a ++ ( '-' ) :: twoDigitChars b

/-- The tooth-number set a token is intended to denote: a singleton, or
every integer between the bounds inclusive. -/
def tokenSet : SpanToken → Finset Int
  | .single n => {(n : Int)}
  | .rng a b => Finset.Icc (a : Int) (b : Int)

/-- Well-formedness of a token: all numbers are valid two-digit numbers
and range bounds are ascending. -/
def validToken : SpanToken → Bool
  | .single n => decide (10 ≤ n ∧ n ≤ 99)
  | .rng a b => decide (10 ≤ a ∧ a ≤ b ∧ b ≤ 99)

/-- The body of a name: its tokens joined by the `_` delimiter. -/
def joinTokens : List SpanToken → List Char
  | [] => []
  | [t] => tokenChars t
  | t :: rest => tokenChars t ++ ( '_' ) :: joinTokens rest

/-- A full element name built from tokens: wrapper around the body. -/
def encodeName (ts : List SpanToken) : List Char :=
  sellePat ++ joinTokens ts ++ pngPat

/-- The tooth-number set a token list is intended to denote. -/
def intendedSet (ts : List SpanToken) : Finset Int :=
  ts.foldr (fun t acc => tokenSet t ∪ acc) ∅

/-- The list of teeth the code-side parser produces for one token. -/
def expandToken : SpanToken → List Int
  | .single n => [(n : Int)]
  | .rng a b => intRange (a : Int) (b : Int)

/-- The list of teeth the code-side parser produces for a token list. -/
def expandList : List SpanToken → List Int
  | [] => []
  | t :: rest => expandToken t ++ expandList rest

/-! Basic lemmas about the parsing pipeline. -/

theorem parseEntry_eq_some {f : String} {p : String × Finset Int}
    (h : parseEntry f = some p) : p.1 = f ∧ parsedSpan f = some p.2 := by
  unfold parseEntry at h
  cases he : extractTeeth f.data with
  | none => rw [he] at h; simp at h
  | some l =>
    rw [he] at h
    simp only [Option.map_some', Option.some_inj] at h
    subst h
    exact ⟨rfl, by simp [parsedSpan, he]⟩

theorem parseEntry_eq_none {f : String} :
    parseEntry f = none ↔ extractTeeth f.data = none := by
  unfold parseEntry
  cases extractTeeth f.data <;> simp

theorem collectParsed_mem :
    ∀ {l : List String} {ps : List (String × Finset Int)},
      collectParsed l = some ps → ∀ p ∈ ps, p.1 ∈ l ∧ parseEntry p.1 = some p := by
  intro l
  induction l with
  | nil =>
    intro ps h p hp
    simp only [collectParsed, Option.some_inj] at h
    subst h; simp at hp
  | cons f rest ih =>
    intro ps h p hp
    simp only [collectParsed] at h
    cases he : parseEntry f with
    | none => rw [he] at h; simp at h
    | some q =>
      rw [he] at h
      cases hr : collectParsed rest with
      | none => rw [hr] at h; simp at h
      | some qs =>
        rw [hr] at h
        simp only [Option.some_inj] at h
        subst h
        rcases List.mem_cons.mp hp with hpq | hpqs
        · subst hpq
          have := parseEntry_eq_some he
          exact ⟨by rw [this.1]; exact List.mem_cons_self _ _, by rw [this.1]; exact he⟩
        · have := ih hr p hpqs
          exact ⟨List.mem_cons_of_mem _ this.1, this.2⟩

theorem collectParsed_mem_of :
    ∀ {l : List String} {ps : List (String × Finset Int)},
      collectParsed l = some ps →
      ∀ {f : String} {q : String × Finset Int},
        f ∈ l → parseEntry f = some q → q ∈ ps := by
  intro l
  induction l with
  | nil => intro ps h f q hf; simp at hf
  | cons g rest ih =>
    intro ps h f q hf hq
    simp only [collectParsed] at h
    cases he : parseEntry g with
    | none => rw [he] at h; simp at h
    | some q' =>
      rw [he] at h
      cases hr : collectParsed rest with
      | none => rw [hr] at h; simp at h
      | some qs =>
        rw [hr] at h
        simp only [Option.some_inj] at h
        subst h
        rcases List.mem_cons.mp hf with hfg | hfr
        · subst hfg
          rw [he] at hq
          simp only [Option.some_inj] at hq
          subst hq
          exact List.mem_cons_self _ _
        · exact List.mem_cons_of_mem _ (ih hr hfr hq)

theorem collectParsed_total :
    ∀ {l : List String}, (∀ f ∈ l, parseEntry f ≠ none) →
      ∃ ps, collectParsed l = some ps := by
  intro l
  induction l with
  | nil => intro _; exact ⟨[], rfl⟩
  | cons f rest ih =>
    intro h
    obtain ⟨ps, hps⟩ := ih (fun g hg => h g (List.mem_cons_of_mem _ hg))
    cases he : parseEntry f with
    | none => exact absurd he (h f (List.mem_cons_self _ _))
    | some q => exact ⟨q :: ps, by simp [collectParsed, he, hps]⟩

theorem collectParsed_none_of_mem :
    ∀ {l : List String} {f : String},
      f ∈ l → parseEntry f = none → collectParsed l = none := by
  intro l
  induction l with
  | nil => intro f hf; simp at hf
  | cons g rest ih =>
    intro f hf hnone
    rcases List.mem_cons.mp hf with hfg | hfr
    · subst hfg
      simp [collectParsed, hnone]
    · simp only [collectParsed, ih hfr hnone]
      cases parseEntry g <;> rfl

theorem spansOf_map :
    ∀ {chosen : List (String × Finset Int)},
      (∀ p ∈ chosen, parsedSpan p.1 = some p.2) →
      spansOf (chosen.map Prod.fst) = some (chosen.map Prod.snd) := by
  intro chosen
  induction chosen with
  | nil => intro _; rfl
  | cons p rest ih =>
    intro h
    have hp := h p (List.mem_cons_self _ _)
    have hr := ih (fun q hq => h q (List.mem_cons_of_mem _ hq))
    simp [spansOf, hp, hr]

theorem mem_foldUnion {x : Int} :
    ∀ {ss : List (Finset Int)}, x ∈ foldUnion ss ↔ ∃ s ∈ ss, x ∈ s := by
  intro ss
  induction ss with
  | nil => simp [foldUnion]
  | cons s rest ih =>
    simp only [foldUnion, List.foldr_cons, Finset.mem_union]
    constructor
    · rintro (hx | hx)
      · exact ⟨s, List.mem_cons_self _ _, hx⟩
      · obtain ⟨t, ht, hxt⟩ := ih.mp hx
        exact ⟨t, List.mem_cons_of_mem _ ht, hxt⟩
    · rintro ⟨t, ht, hxt⟩
      rcases List.mem_cons.mp ht with h | h
      · subst h; exact Or.inl hxt
      · exact Or.inr (ih.mpr ⟨t, h, hxt⟩)

theorem foldUnion_subset {ss : List (Finset Int)} {A : Finset Int}
    (h : ∀ s ∈ ss, s ⊆ A) : foldUnion ss ⊆ A := by
  intro x hx
  obtain ⟨s, hs, hxs⟩ := mem_foldUnion.mp hx
  exact h s hs hxs

theorem subset_foldUnion {s : Finset Int} {ss : List (Finset Int)}
    (h : s ∈ ss) : s ⊆ foldUnion ss :=
  fun x hx => mem_foldUnion.mpr ⟨s, h, hx⟩

theorem foldUnion_perm {l l' : List (Finset Int)} (h : l.Perm l') :
    foldUnion l = foldUnion l' := by
  ext x
  simp only [mem_foldUnion]
  constructor
  · rintro ⟨s, hs, hxs⟩; exact ⟨s, h.mem_iff.mp hs, hxs⟩
  · rintro ⟨s, hs, hxs⟩; exact ⟨s, h.mem_iff.mpr hs, hxs⟩

theorem foldUnion_append_singleton (l : List (Finset Int)) (s : Finset Int) :
    foldUnion (l ++ [s]) = foldUnion l ∪ s := by
  ext x
  simp only [mem_foldUnion, Finset.mem_union, List.mem_append, List.mem_singleton]
  constructor
  · rintro ⟨t, ht | ht, hxt⟩
    · exact Or.inl ⟨t, ht, hxt⟩
    · subst ht; exact Or.inr hxt
  · rintro (⟨t, ht, hxt⟩ | hx)
    · exact ⟨t, Or.inl ht, hxt⟩
    · exact ⟨s, Or.inr rfl, hx⟩

/-! Lemmas about the greedy selection. -/

theorem pickBest_fold_some (chosenNames : List String) (covered : Finset Int) :
    ∀ (pairs : List (String × Finset Int))
      (acc : Option (String × Finset Int) × Nat),
      (∀ q, acc.1 = some q → q.1 ∉ chosenNames ∧ 0 < (q.2 \ covered).card) →
      ∀ q,
        (pairs.foldl
          (fun acc p =>
            if p.1 ∈ chosenNames then acc
            else if acc.2 < (p.2 \ covered).card then (some p, (p.2 \ covered).card)
            else acc)
          acc).1 = some q →
        (q ∈ pairs ∨ acc.1 = some q) ∧ q.1 ∉ chosenNames ∧ 0 < (q.2 \ covered).card := by
  intro pairs
  induction pairs with
  | nil =>
    intro acc hacc q hq
    simp only [List.foldl_nil] at hq
    exact ⟨Or.inr hq, hacc q hq⟩
  | cons p rest ih =>
    intro acc hacc q hq
    simp only [List.foldl_cons] at hq
    by_cases hmem : p.1 ∈ chosenNames
    · rw [if_pos hmem] at hq
      rcases ih acc hacc q hq with ⟨hor, hrest⟩
      exact ⟨hor.imp (List.mem_cons_of_mem _) id, hrest⟩
    · rw [if_neg hmem] at hq
      by_cases hlt : acc.2 < (p.2 \ covered).card
      · rw [if_pos hlt] at hq
        have hacc' : ∀ r, (some p, (p.2 \ covered).card).1 = some r →
            r.1 ∉ chosenNames ∧ 0 < (r.2 \ covered).card := by
          intro r hr
          simp only [Option.some_inj] at hr
          subst hr
          exact ⟨hmem, Nat.lt_of_le_of_lt (Nat.zero_le _) hlt⟩
        rcases ih _ hacc' q hq with ⟨hor, hrest⟩
        refine ⟨?_, hrest⟩
        rcases hor with h | h
        · exact Or.inl (List.mem_cons_of_mem _ h)
        · simp only [Option.some_inj] at h
          subst h
          exact Or.inl (List.mem_cons_self _ _)
      · rw [if_neg hlt] at hq
        rcases ih acc hacc q hq with ⟨hor, hrest⟩
        exact ⟨hor.imp (List.mem_cons_of_mem _) id, hrest⟩

theorem pickBest_some_spec {pairs : List (String × Finset Int)}
    {chosenNames : List String} {covered : Finset Int}
    {p : String × Finset Int}
    (h : (pickBest pairs chosenNames covered).1 = some p) :
    p ∈ pairs ∧ p.1 ∉ chosenNames ∧ 0 < (p.2 \ covered).card := by
  unfold pickBest at h
  have := pickBest_fold_some chosenNames covered pairs (none, 0)
    (by intro q hq; simp at hq) p h
  rcases this with ⟨hor, hrest⟩
  rcases hor with hp | hp
  · exact ⟨hp, hrest⟩
  · simp at hp

theorem pickBest_fold_none (chosenNames : List String) (covered : Finset Int) :
    ∀ (pairs : List (String × Finset Int))
      (acc : Option (String × Finset Int) × Nat),
      (pairs.foldl
        (fun acc p =>
          if p.1 ∈ chosenNames then acc
          else if acc.2 < (p.2 \ covered).card then (some p, (p.2 \ covered).card)
          else acc)
        acc).1 = none →
      acc.1 = none ∧ ∀ p ∈ pairs, p.1 ∉ chosenNames → (p.2 \ covered).card ≤ acc.2 := by
  intro pairs
  induction pairs with
  | nil =>
    intro acc hq
    simp only [List.foldl_nil] at hq
    exact ⟨hq, by simp⟩
  | cons p rest ih =>
    intro acc hq
    simp only [List.foldl_cons] at hq
    by_cases hmem : p.1 ∈ chosenNames
    · rw [if_pos hmem] at hq
      rcases ih acc hq with ⟨hnone, hall⟩
      refine ⟨hnone, ?_⟩
      intro r hr hrn
      rcases List.mem_cons.mp hr with h | h
      · subst h; exact absurd hmem hrn
      · exact hall r h hrn
    · rw [if_neg hmem] at hq
      by_cases hlt : acc.2 < (p.2 \ covered).card
      · rw [if_pos hlt] at hq
        rcases ih _ hq with ⟨hnone, _⟩
        simp at hnone
      · rw [if_neg hlt] at hq
        rcases ih acc hq with ⟨hnone, hall⟩
        refine ⟨hnone, ?_⟩
        intro r hr hrn
        rcases List.mem_cons.mp hr with h | h
        · subst h; exact Nat.le_of_not_lt hlt
        · exact hall r h hrn

theorem pickBest_none_spec {pairs : List (String × Finset Int)}
    {chosenNames : List String} {covered : Finset Int}
    (h : (pickBest pairs chosenNames covered).1 = none) :
    ∀ p ∈ pairs, p.1 ∉ chosenNames → (p.2 \ covered).card = 0 := by
  unfold pickBest at h
  have := (pickBest_fold_none chosenNames covered pairs (none, 0) h).2
  intro p hp hpn
  exact Nat.le_zero.mp (this p hp hpn)

theorem greedyLoop_mem (hl : Nat) (valid : List (String × Finset Int)) :
    ∀ (fuel : Nat) (chosen : List (String × Finset Int)) (covered : Finset Int),
      (∀ p ∈ chosen, p ∈ valid) →
      ∀ p ∈ greedyLoop hl valid fuel chosen covered, p ∈ valid := by
  intro fuel
  induction fuel with
  | zero => intro chosen covered h p hp; exact h p hp
  | succ fuel ih =>
    intro chosen covered h p hp
    unfold greedyLoop at hp
    by_cases hc : covered.card < hl
    · rw [if_pos hc] at hp
      cases hpick : (pickBest valid (chosen.map Prod.fst) covered).1 with
      | none => rw [hpick] at hp; exact h p hp
      | some q =>
        rw [hpick] at hp
        have hq := pickBest_some_spec hpick
        refine ih (chosen ++ [q]) (covered ∪ q.2) ?_ p hp
        intro r hr
        rcases List.mem_append.mp hr with h' | h'
        · exact h r h'
        · rw [List.mem_singleton.mp h']; exact hq.1
    · rw [if_neg hc] at hp; exact h p hp

theorem validityGate_ne_nil {rosterLen : Nat} {hiddenSet : Finset Int}
    {chosen : List (String × Finset Int)}
    (hne : validityGate rosterLen hiddenSet chosen ≠ []) :
    validityGate rosterLen hiddenSet chosen = chosen.map Prod.fst ∧
    chosen ≠ [] ∧
    ¬ ((rosterLen : Int) - (hiddenSet.card : Int) ≤ 2) ∧
    chosen.any (fun p => deniedName p.1) = false ∧
    foldUnion (chosen.map Prod.snd) = hiddenSet := by
  unfold validityGate at hne ⊢
  by_cases h0 : chosen = []
  · rw [if_pos h0] at hne; exact absurd rfl hne
  rw [if_neg h0] at hne ⊢
  by_cases h1 : (rosterLen : Int) - (hiddenSet.card : Int) ≤ 2
  · rw [if_pos h1] at hne; exact absurd rfl hne
  rw [if_neg h1] at hne ⊢
  by_cases h2 : chosen.any (fun p => deniedName p.1) = true
  · rw [if_pos h2] at hne; exact absurd rfl hne
  rw [if_neg h2] at hne ⊢
  by_cases h3 : foldUnion (chosen.map Prod.snd) = hiddenSet ∧
      foldUnion (chosen.map Prod.snd) \ hiddenSet = ∅
  · rw [if_pos h3] at hne ⊢
    exact ⟨rfl, h0, h1, Bool.not_eq_true _ ▸ h2, h3.1⟩
  · rw [if_neg h3] at hne; exact absurd rfl hne

theorem find_eq_some_cases {roster hidden_teeth : List Int}
    {available : List String} {R : List String}
    (h : find_matching_selles roster hidden_teeth available = some R) :
    (hidden_teeth = [] ∧ R = []) ∨
    ∃ parsed, collectParsed (available.filter wrappedB) = some parsed ∧
      hidden_teeth ≠ [] ∧
      ((∃ p, (validCandidates hidden_teeth.toFinset parsed).find?
            (fun p => decide (p.2 = hidden_teeth.toFinset)) = some p ∧ R = [p.1]) ∨
       ((validCandidates hidden_teeth.toFinset parsed).find?
            (fun p => decide (p.2 = hidden_teeth.toFinset)) = none ∧
        R = validityGate roster.length hidden_teeth.toFinset
          (greedyResult hidden_teeth.length
            (validCandidates hidden_teeth.toFinset parsed)))) := by
  unfold find_matching_selles at h
  by_cases h0 : hidden_teeth = []
  · rw [if_pos h0] at h
    simp only [Option.some_inj] at h
    exact Or.inl ⟨h0, h.symm⟩
  rw [if_neg h0] at h
  cases hcp : collectParsed (available.filter wrappedB) with
  | none => rw [hcp] at h; simp at h
  | some parsed =>
    rw [hcp] at h
    refine Or.inr ⟨parsed, rfl, h0, ?_⟩
    simp only at h
    cases hf : (validCandidates hidden_teeth.toFinset parsed).find?
        (fun p => decide (p.2 = hidden_teeth.toFinset)) with
    | some p =>
      rw [hf] at h
      simp only [Option.some_inj] at h
      exact Or.inl ⟨p, rfl, h.symm⟩
    | none =>
      rw [hf] at h
      simp only [Option.some_inj] at h
      exact Or.inr ⟨rfl, h.symm⟩

theorem mem_validCandidates {A : Finset Int} {parsed : List (String × Finset Int)}
    {p : String × Finset Int} (h : p ∈ validCandidates A parsed) :
    p ∈ parsed ∧ p.2 ⊆ A := by
  have := List.mem_filter.mp h
  exact ⟨this.1, of_decide_eq_true this.2⟩

theorem parsedSpan_of_valid {A : Finset Int} {parsed : List (String × Finset Int)}
    {available_selles : List String}
    (hcp : collectParsed available_selles = some parsed)
    {p : String × Finset Int} (hp : p ∈ validCandidates A parsed) :
    parsedSpan p.1 = some p.2 ∧ p.1 ∈ available_selles := by
  have hmem := (mem_validCandidates hp).1
  have := collectParsed_mem hcp p hmem
  exact ⟨(parseEntry_eq_some this.2).2, this.1⟩

/-- C8: with an empty absent set, `find_matching_selles` returns the empty
list immediately for every roster and every catalog — even a catalog full
of unparsable entries is never examined. -/
theorem empty_absent_short_circuit (roster : List Int) (available : List String) :
    find_matching_selles roster [] available = some [] := by
  unfold find_matching_selles
  rw [if_pos rfl]

/-- C2: whenever `find_matching_selles` returns a non-empty list, every
returned element's parsed span is a subset of the absent set, and the
union of the returned spans equals the absent set exactly. -/
theorem subset_and_exact_union_invariant {roster hidden_teeth : List Int}
    {available : List String} {R : List String}
    (hres : find_matching_selles roster hidden_teeth available = some R)
    (hne : R ≠ []) :
    ∃ ss, spansOf R = some ss ∧ (∀ s ∈ ss, s ⊆ hidden_teeth.toFinset) ∧
      foldUnion ss = hidden_teeth.toFinset := by
  rcases find_eq_some_cases hres with ⟨_, hR⟩ | ⟨parsed, hcp, _, hcase⟩
  · exact absurd hR hne
  rcases hcase with ⟨p, hfind, hR⟩ | ⟨hfind, hR⟩
  · subst hR
    have hpv := List.mem_of_find?_eq_some hfind
    have hpa : p.2 = hidden_teeth.toFinset := by
      have h1 := List.find?_some hfind
      simpa using h1
    have hspan := (parsedSpan_of_valid hcp hpv).1
    refine ⟨[p.2], ?_, ?_, ?_⟩
    · simp [spansOf, hspan]
    · intro s hs
      rw [List.mem_singleton.mp hs, hpa]
    · rw [foldUnion, List.foldr_cons, List.foldr_nil, Finset.union_empty, hpa]
  · subst hR
    rcases validityGate_ne_nil hne with ⟨hEq, _, _, _, hcov⟩
    rw [hEq]
    have hchosen : ∀ p ∈ greedyResult hidden_teeth.length
        (validCandidates hidden_teeth.toFinset parsed),
        p ∈ validCandidates hidden_teeth.toFinset parsed := by
      apply greedyLoop_mem
      intro p hp
      simp at hp
    refine ⟨(greedyResult hidden_teeth.length
        (validCandidates hidden_teeth.toFinset parsed)).map Prod.snd, ?_, ?_, hcov⟩
    · exact spansOf_map (fun p hp => (parsedSpan_of_valid hcp (hchosen p hp)).1)
    · intro s hs
      obtain ⟨p, hp, hps⟩ := List.mem_map.mp hs
      rw [← hps]
      exact (mem_validCandidates (hchosen p hp)).2

/-- Witness for C2 at a concrete input: a single exact saddle for the
absent set {21, 22}. -/
theorem subset_and_exact_union_invariant_witness :
    ∃ ss, spansOf ["selle_21-22.png"] = some ss ∧
      (∀ s ∈ ss, s ⊆ ([21, 22] : List Int).toFinset) ∧
      foldUnion ss = ([21, 22] : List Int).toFinset :=
  @subset_and_exact_union_invariant rosterSup [21, 22] ["selle_21-22.png"]
    ["selle_21-22.png"] (by decide) (by decide)

/-- C3: if some properly wrapped catalog entry's parsed span equals the
(non-empty) absent set exactly and the catalog is parsable, the resolver
returns a singleton whose span equals the absent set — the exact-match
short-circuit beats every multi-element combination. -/
theorem exact_match_singleton {roster hidden_teeth : List Int}
    {available : List String} {f : String}
    (hne : hidden_teeth ≠ [])
    (hwf : ∀ g ∈ available, wrappedB g = true → extractTeeth g.data ≠ none)
    (hf : f ∈ available) (hw : wrappedB f = true)
    (hspan : parsedSpan f = some hidden_teeth.toFinset) :
    ∃ g, find_matching_selles roster hidden_teeth available = some [g] ∧
      g ∈ available ∧ parsedSpan g = some hidden_teeth.toFinset := by
  have hall : ∀ g ∈ available.filter wrappedB, parseEntry g ≠ none := by
    intro g hg
    have := List.mem_filter.mp hg
    intro hcon
    exact hwf g this.1 this.2 (parseEntry_eq_none.mp hcon)
  obtain ⟨parsed, hcp⟩ := collectParsed_total hall
  have hpe : parseEntry f = some (f, hidden_teeth.toFinset) := by
    unfold parseEntry
    unfold parsedSpan at hspan
    cases he : extractTeeth f.data with
    | none => rw [he] at hspan; simp at hspan
    | some l =>
      rw [he] at hspan
      simp only [Option.map_some', Option.some_inj] at hspan
      simp [he, hspan]
  have hfp : (f, hidden_teeth.toFinset) ∈ parsed :=
    collectParsed_mem_of hcp (List.mem_filter.mpr ⟨hf, hw⟩) hpe
  have hfv : (f, hidden_teeth.toFinset) ∈
      validCandidates hidden_teeth.toFinset parsed :=
    List.mem_filter.mpr ⟨hfp, decide_eq_true (fun _ h => h)⟩
  cases hfind : (validCandidates hidden_teeth.toFinset parsed).find?
      (fun p => decide (p.2 = hidden_teeth.toFinset)) with
  | none =>
    have := List.find?_eq_none.mp hfind _ hfv
    simp at this
  | some p =>
    have hpa : p.2 = hidden_teeth.toFinset := by
      have h1 := List.find?_some hfind
      simpa using h1
    have hps := parsedSpan_of_valid hcp (List.mem_of_find?_eq_some hfind)
    refine ⟨p.1, ?_, (List.mem_filter.mp hps.2).1, by rw [hps.1, hpa]⟩
    unfold find_matching_selles
    rw [if_neg hne, hcp]
    simp only [hfind]

/-- Witness for C3 at a concrete input: absent set {11, 12}, catalog
containing both a smaller saddle and the exact one. -/
theorem exact_match_singleton_witness :
    ∃ g, find_matching_selles rosterSup [11, 12]
        ["selle_11.png", "selle_11-12.png"] = some [g] ∧
      g ∈ ["selle_11.png", "selle_11-12.png"] ∧
      parsedSpan g = some ([11, 12] : List Int).toFinset :=
  @exact_match_singleton rosterSup [11, 12]
    ["selle_11.png", "selle_11-12.png"] ("selle_11-12.png")
    (by decide) (by decide) (by decide) (by decide) (by decide)

/-- C7 counterexample: with the absent set {11} and a catalog holding one
malformed wrapped entry and one usable exact match, the resolver
propagates the parse error (models a raised `ValueError`) instead of
skipping the malformed entry — had the bad entry been treated as absent,
the call would have returned the exact match, as the second conjunct
shows. -/
theorem unparsable_entry_raises_cex :
    find_matching_selles rosterSup [11] ["selle_abc.png", "selle_11.png"] = none ∧
    find_matching_selles rosterSup [11] ["selle_11.png"] = some ["selle_11.png"] :=
  ⟨by decide, by decide⟩

/-- C7 amended: for a non-empty absent set, a catalog containing any
wrapped entry whose name body is malformed makes `find_matching_selles`
propagate the parse error (return `none`, modelling the uncaught
`ValueError`) — unparsable entries are not skipped. -/
theorem unparsable_entry_propagates {roster hidden_teeth : List Int}
    {available : List String} {f : String}
    (hne : hidden_teeth ≠ []) (hf : f ∈ available) (hw : wrappedB f = true)
    (hbad : extractTeeth f.data = none) :
    find_matching_selles roster hidden_teeth available = none := by
  unfold find_matching_selles
  rw [if_neg hne]
  rw [collectParsed_none_of_mem (List.mem_filter.mpr ⟨hf, hw⟩)
    (parseEntry_eq_none.mpr hbad)]

/-- Witness for the amended C7 at a concrete input. -/
theorem unparsable_entry_propagates_witness :
    find_matching_selles rosterSup [12] ["selle_xy.png"] = none :=
  @unparsable_entry_propagates rosterSup [12] ["selle_xy.png"] ("selle_xy.png")
    (by decide) (by decide) (by decide) (by decide)

/-- C9 counterexample: on a name that is only the wrapper (empty token
list), the codec raises (returns `none`, modelling the `ValueError` from
`int('')`) instead of returning the empty set. -/
theorem codec_empty_body_cex :
    extractTeeth ("selle_.png".data) = none ∧
    extractTeeth ("selle_.png".data) ≠ some [] :=
  ⟨by decide, by decide⟩

/-- C9 amended: the codec fails with a parse error on an empty token list
— any filename whose stripped body is empty makes
`_extract_teeth_from_selle_filename` raise, since `''.split('_')` is
`['']` and `int('')` raises `ValueError`. -/
theorem codec_empty_body_raises {name : List Char} (h : baseName name = []) :
    extractTeeth name = none := by
  unfold extractTeeth
  rw [h]
  rfl

/-- Witness for the amended C9 at the wrapper-only filename. -/
theorem codec_empty_body_raises_witness :
    extractTeeth ("selle_.png".data) = none :=
  codec_empty_body_raises (by decide)

/-- C10: a range token with descending bounds expands to the empty list of
teeth (Python `range(start, end + 1)` is empty when `end < start`); in
particular the name encoding `38-36` contributes no teeth at all. -/
theorem descending_range_empty :
    (∀ a b : Int, b < a → intRange a b = []) ∧
    extractTeeth ("selle_38-36.png".data) = some [] := by
  constructor
  · intro a b h
    unfold intRange
    have hz : (b + 1 - a).toNat = 0 := by omega
    rw [hz]
    rfl
  · decide

/-- Witness for C10 at the concrete descending range 38-36. -/
theorem descending_range_empty_witness :
    intRange 38 36 = [] ∧ extractTeeth ("selle_38-36.png".data) = some [] :=
  ⟨descending_range_empty.1 38 36 (by decide), descending_range_empty.2⟩

theorem spansOf_mem :
    ∀ {R : List String} {ss : List (Finset Int)},
      spansOf R = some ss → ∀ s ∈ ss, ∃ g ∈ R, parsedSpan g = some s := by
  intro R
  induction R with
  | nil =>
    intro ss h s hs
    simp only [spansOf, Option.some_inj] at h
    subst h; simp at hs
  | cons g rest ih =>
    intro ss h s hs
    simp only [spansOf] at h
    cases hg : parsedSpan g with
    | none => rw [hg] at h; simp at h
    | some t =>
      rw [hg] at h
      cases hr : spansOf rest with
      | none => rw [hr] at h; simp at h
      | some ts =>
        rw [hr] at h
        simp only [Option.some_inj] at h
        subst h
        rcases List.mem_cons.mp hs with h' | h'
        · subst h'; exact ⟨g, List.mem_cons_self _ _, hg⟩
        · obtain ⟨g', hg', hsp⟩ := ih hr s h'
          exact ⟨g', List.mem_cons_of_mem _ hg', hsp⟩

theorem find_no_exact {roster hidden_teeth : List Int} {available : List String}
    {parsed : List (String × Finset Int)}
    (hne : hidden_teeth ≠ [])
    (hcp : collectParsed (available.filter wrappedB) = some parsed)
    (hnoexact : ∀ g ∈ available, wrappedB g = true →
      parsedSpan g ≠ some hidden_teeth.toFinset) :
    find_matching_selles roster hidden_teeth available =
      some (validityGate roster.length hidden_teeth.toFinset
        (greedyResult hidden_teeth.length
          (validCandidates hidden_teeth.toFinset parsed))) := by
  unfold find_matching_selles
  rw [if_neg hne, hcp]
  cases hfind : (validCandidates hidden_teeth.toFinset parsed).find?
      (fun p => decide (p.2 = hidden_teeth.toFinset)) with
  | some p =>
    exfalso
    have hpa : p.2 = hidden_teeth.toFinset := by
      have h1 := List.find?_some hfind
      simpa using h1
    have hmem := List.mem_of_find?_eq_some hfind
    have hps := parsedSpan_of_valid hcp hmem
    have hfil := List.mem_filter.mp hps.2
    exact hnoexact p.1 hfil.1 hfil.2 (by rw [hps.1, hpa])
  | none => simp only [hfind]

/-- C1 counterexample: the whole upper arch (14 teeth) is absent, so 0
teeth remain present, yet the resolver returns the single exact-match
catalog entry instead of the empty list — the exact-match short-circuit
runs before the minimum-support check. -/
theorem minimum_support_rejection_cex :
    find_matching_selles rosterSup
        [11, 12, 13, 14, 15, 16, 17, 21, 22, 23, 24, 25, 26, 27]
        ["selle_11-17_21-27.png"] = some ["selle_11-17_21-27.png"] ∧
    rosterSup.length = 14 ∧
    ([11, 12, 13, 14, 15, 16, 17, 21, 22, 23, 24, 25, 26, 27] :
      List Int).toFinset.card = 14 :=
  ⟨by decide, by decide, by decide⟩

/-- C1 amended: when at most 2 teeth would remain present, the resolver
returns the empty list provided no single wrapped catalog entry parses to
exactly the absent set — the exact-match short-circuit bypasses the
minimum-support gate, so an exact match is returned even then.  (The
catalog also has to be parsable, else the call propagates a parse
error.) -/
theorem minimum_support_rejection {roster hidden_teeth : List Int}
    {available : List String}
    (hwf : ∀ g ∈ available, wrappedB g = true → extractTeeth g.data ≠ none)
    (hnoexact : ∀ g ∈ available, wrappedB g = true →
      parsedSpan g ≠ some hidden_teeth.toFinset)
    (hsupp : (roster.length : Int) - (hidden_teeth.toFinset.card : Int) ≤ 2) :
    find_matching_selles roster hidden_teeth available = some [] := by
  by_cases h0 : hidden_teeth = []
  · unfold find_matching_selles
    rw [if_pos h0]
  have hall : ∀ g ∈ available.filter wrappedB, parseEntry g ≠ none := by
    intro g hg hcon
    have := List.mem_filter.mp hg
    exact hwf g this.1 this.2 (parseEntry_eq_none.mp hcon)
  obtain ⟨parsed, hcp⟩ := collectParsed_total hall
  rw [find_no_exact h0 hcp hnoexact]
  unfold validityGate
  by_cases hnil : greedyResult hidden_teeth.length
      (validCandidates hidden_teeth.toFinset parsed) = []
  · rw [if_pos hnil]
  · rw [if_neg hnil, if_pos hsupp]

/-- Witness for the amended C1: full upper arch absent, one valid but
non-exact candidate; the greedy cover is rejected by the minimum-support
gate. -/
theorem minimum_support_rejection_witness :
    find_matching_selles rosterSup
      [11, 12, 13, 14, 15, 16, 17, 21, 22, 23, 24, 25, 26, 27]
      ["selle_11-17.png"] = some [] :=
  @minimum_support_rejection rosterSup
    [11, 12, 13, 14, 15, 16, 17, 21, 22, 23, 24, 25, 26, 27]
    ["selle_11-17.png"] (by decide) (by decide) (by decide)

/-- C6 counterexample: the only combinatorially valid cover of the absent
set {11..17, 21} is the single entry `selle_11-17_21.png`, whose base name
contains the denylisted substring `11-17_21`; the resolver still returns
it non-empty because the exact-match short-circuit runs before the
forbidden-pattern check. -/
theorem denylist_rejection_cex :
    find_matching_selles rosterSup [11, 12, 13, 14, 15, 16, 17, 21]
        ["selle_11-17_21.png"] = some ["selle_11-17_21.png"] ∧
    deniedName ("selle_11-17_21.png") = true :=
  ⟨by decide, by decide⟩

/-- C6 amended: if no single wrapped catalog entry parses to exactly the
absent set (so the denylist-bypassing exact-match short-circuit cannot
fire) and every combinatorially valid cover drawn from the catalog
contains a denylisted element, the resolver returns the empty list — the
entire result is rejected, not just the offending element.  (The catalog
must be parsable for the call to return at all.) -/
theorem denylist_rejects_cover {roster hidden_teeth : List Int}
    {available : List String}
    (hwf : ∀ g ∈ available, wrappedB g = true → extractTeeth g.data ≠ none)
    (hnoexact : ∀ g ∈ available, wrappedB g = true →
      parsedSpan g ≠ some hidden_teeth.toFinset)
    (hcover : ∀ (R : List String) (ss : List (Finset Int)),
      (∀ g ∈ R, g ∈ available) → spansOf R = some ss →
      (∀ s ∈ ss, s ⊆ hidden_teeth.toFinset) →
      foldUnion ss = hidden_teeth.toFinset →
      ∃ g ∈ R, deniedName g = true) :
    find_matching_selles roster hidden_teeth available = some [] := by
  by_cases h0 : hidden_teeth = []
  · unfold find_matching_selles
    rw [if_pos h0]
  have hall : ∀ g ∈ available.filter wrappedB, parseEntry g ≠ none := by
    intro g hg hcon
    have := List.mem_filter.mp hg
    exact hwf g this.1 this.2 (parseEntry_eq_none.mp hcon)
  obtain ⟨parsed, hcp⟩ := collectParsed_total hall
  rw [find_no_exact h0 hcp hnoexact]
  unfold validityGate
  by_cases hnil : greedyResult hidden_teeth.length
      (validCandidates hidden_teeth.toFinset parsed) = []
  · rw [if_pos hnil]
  rw [if_neg hnil]
  by_cases hsupp : (roster.length : Int) - (hidden_teeth.toFinset.card : Int) ≤ 2
  · rw [if_pos hsupp]
  rw [if_neg hsupp]
  by_cases hany : (greedyResult hidden_teeth.length
      (validCandidates hidden_teeth.toFinset parsed)).any
      (fun p => deniedName p.1) = true
  · rw [if_pos hany]
  rw [if_neg hany]
  by_cases hfull : foldUnion ((greedyResult hidden_teeth.length
        (validCandidates hidden_teeth.toFinset parsed)).map Prod.snd) =
      hidden_teeth.toFinset ∧
      foldUnion ((greedyResult hidden_teeth.length
        (validCandidates hidden_teeth.toFinset parsed)).map Prod.snd) \
      hidden_teeth.toFinset = ∅
  · exfalso
    have hchosen : ∀ p ∈ greedyResult hidden_teeth.length
        (validCandidates hidden_teeth.toFinset parsed),
        p ∈ validCandidates hidden_teeth.toFinset parsed := by
      apply greedyLoop_mem
      intro p hp
      simp at hp
    obtain ⟨g, hgR, hgden⟩ := hcover
      ((greedyResult hidden_teeth.length
        (validCandidates hidden_teeth.toFinset parsed)).map Prod.fst)
      ((greedyResult hidden_teeth.length
        (validCandidates hidden_teeth.toFinset parsed)).map Prod.snd)
      (by
        intro g hg
        obtain ⟨p, hp, hpg⟩ := List.mem_map.mp hg
        have := (parsedSpan_of_valid hcp (hchosen p hp)).2
        rw [← hpg]
        exact (List.mem_filter.mp this).1)
      (spansOf_map (fun p hp => (parsedSpan_of_valid hcp (hchosen p hp)).1))
      (by
        intro s hs
        obtain ⟨p, hp, hps⟩ := List.mem_map.mp hs
        rw [← hps]
        exact (mem_validCandidates (hchosen p hp)).2)
      hfull.1
    obtain ⟨p, hp, hpg⟩ := List.mem_map.mp hgR
    have : (greedyResult hidden_teeth.length
        (validCandidates hidden_teeth.toFinset parsed)).any
        (fun p => deniedName p.1) = true :=
      List.any_eq_true.mpr ⟨p, hp, by rw [hpg]; exact hgden⟩
    exact hany this
  · rw [if_neg hfull]

/-- Witness for the amended C6: the absent set {11..17, 21, 22} can only
be covered using `selle_11-17_21.png` (the sole candidate containing the
incisor block), whose name is denylisted; the greedy cover is found and
then rejected whole. -/
theorem denylist_rejects_cover_witness :
    find_matching_selles rosterSup [11, 12, 13, 14, 15, 16, 17, 21, 22]
      ["selle_11-17_21.png", "selle_22.png"] = some [] := by
  refine @denylist_rejects_cover rosterSup [11, 12, 13, 14, 15, 16, 17, 21, 22]
    ["selle_11-17_21.png", "selle_22.png"] (by decide) (by decide) ?_
  intro R ss hRav hspans hsub huni
  have h11 : (11 : Int) ∈ foldUnion ss := by
    rw [huni]; decide
  obtain ⟨s, hs, h11s⟩ := mem_foldUnion.mp h11
  obtain ⟨g, hgR, hgs⟩ := spansOf_mem hspans s hs
  have hgav := hRav g hgR
  rcases List.mem_cons.mp hgav with hg1 | hg2
  · exact ⟨g, hgR, by rw [hg1]; decide⟩
  · exfalso
    have hg2' : g = "selle_22.png" := by
      rcases List.mem_cons.mp hg2 with h | h
      · exact h
      · simp at h
    rw [hg2'] at hgs
    have : s = ({22} : Finset Int) := by
      have hd : parsedSpan ("selle_22.png") = some ({22} : Finset Int) := by decide
      rw [hd] at hgs
      exact (Option.some_inj.mp hgs).symm
    rw [this] at h11s
    simp at h11s

/-! String-level lemmas used by the codec round-trip (C4). -/

theorem splitOnChar_not_mem {sep : Char} :
    ∀ {xs : List Char}, sep ∉ xs → splitOnChar sep xs = [xs] := by
  intro xs
  induction xs with
  | nil => intro _; rfl
  | cons c rest ih =>
    intro h
    have hc : ¬ c = sep := fun hc => h (hc ▸ List.mem_cons_self _ _)
    have hr : sep ∉ rest := fun hr => h (List.mem_cons_of_mem _ hr)
    unfold splitOnChar
    rw [if_neg hc, ih hr]

theorem splitOnChar_append {sep : Char} :
    ∀ {xs rest : List Char}, sep ∉ xs →
      splitOnChar sep (xs ++ sep :: rest) = xs :: splitOnChar sep rest := by
  intro xs
  induction xs with
  | nil =>
    intro rest _
    show splitOnChar sep (sep :: rest) = [] :: splitOnChar sep rest
    simp [splitOnChar]
  | cons c xs' ih =>
    intro rest h
    have hc : ¬ c = sep := fun hc => h (hc ▸ List.mem_cons_self _ _)
    have hx : sep ∉ xs' := fun hx => h (List.mem_cons_of_mem _ hx)
    show splitOnChar sep (c :: (xs' ++ sep :: rest)) = (c :: xs') :: splitOnChar sep rest
    simp only [splitOnChar, if_neg hc, ih hx]

theorem removeAllAux_fuel {pat : List Char} :
    ∀ (n : Nat) (s : List Char), s.length ≤ n →
      ∀ fuel, s.length ≤ fuel →
        removeAllAux pat fuel s = removeAllAux pat s.length s := by
  intro n
  induction n with
  | zero =>
    intro s hs fuel _
    have : s = [] := List.length_eq_zero.mp (Nat.le_zero.mp hs)
    subst this
    cases fuel <;> rfl
  | succ n ih =>
    intro s hs fuel hf
    cases s with
    | nil => cases fuel <;> rfl
    | cons c rest =>
      simp only [List.length_cons] at hs hf
      obtain ⟨f, rfl⟩ : ∃ f, fuel = f + 1 :=
        ⟨fuel - 1, by omega⟩
      show removeAllAux pat (f + 1) (c :: rest) =
        removeAllAux pat (rest.length + 1) (c :: rest)
      unfold removeAllAux
      by_cases h : pat ≠ [] ∧ pat.isPrefixOf (c :: rest)
      · rw [if_pos h, if_pos h]
        have hplen : 1 ≤ pat.length := by
          cases hp : pat with
          | nil => exact absurd hp h.1
          | cons _ _ => simp
        have hd : ((c :: rest).drop pat.length).length ≤ rest.length := by
          simp only [List.length_drop, List.length_cons]
          omega
        rw [ih _ (by omega) f (by omega), ih _ (by omega) rest.length (by omega)]
      · rw [if_neg h, if_neg h]
        rw [ih rest (by omega) f (by omega), ih rest (by omega) rest.length (by omega)]

theorem removeAllAux_eq_removeAll {pat s : List Char} {fuel : Nat}
    (hf : s.length ≤ fuel) : removeAllAux pat fuel s = removeAll pat s :=
  removeAllAux_fuel s.length s le_rfl fuel hf

theorem removeAll_no_head {p0 : Char} {pr : List Char} :
    ∀ {s : List Char}, p0 ∉ s → removeAll (p0 :: pr) s = s := by
  intro s
  induction s with
  | nil => intro _; rfl
  | cons c rest ih =>
    intro h
    have hc : p0 ≠ c := fun hc => h (hc ▸ List.mem_cons_self _ _)
    have hr : p0 ∉ rest := fun hr => h (List.mem_cons_of_mem _ hr)
    show removeAllAux (p0 :: pr) (rest.length + 1) (c :: rest) = c :: rest
    unfold removeAllAux
    have hpre : ¬ ((p0 :: pr) ≠ [] ∧ (p0 :: pr).isPrefixOf (c :: rest)) := by
      rintro ⟨_, hp⟩
      have hp' : (p0 == c && pr.isPrefixOf rest) = true := hp
      simp only [Bool.and_eq_true, beq_iff_eq] at hp'
      exact hc hp'.1
    rw [if_neg hpre]
    rw [removeAllAux_eq_removeAll le_rfl, ih hr]

theorem removeAll_strip {pat s : List Char} (hpat : pat ≠ []) :
    removeAll pat (pat ++ s) = removeAll pat s := by
  obtain ⟨p0, pr, rfl⟩ : ∃ p0 pr, pat = p0 :: pr := by
    cases hp : pat with
    | nil => exact absurd hp hpat
    | cons a as => exact ⟨a, as, rfl⟩
  show removeAllAux _ ((p0 :: pr) ++ s).length (p0 :: (pr ++ s)) = _
  have hlen : ((p0 :: pr) ++ s).length = (pr ++ s).length + 1 := by simp
  rw [hlen]
  unfold removeAllAux
  have hpre : ((p0 :: pr) ≠ [] ∧ (p0 :: pr).isPrefixOf (p0 :: (pr ++ s))) := by
    refine ⟨by simp, ?_⟩
    have : (p0 :: pr) <+: (p0 :: pr) ++ s := ⟨s, rfl⟩
    exact List.isPrefixOf_iff_prefix.mpr this
  rw [if_pos hpre]
  have hdrop : (p0 :: (pr ++ s)).drop (p0 :: pr).length = s := by
    have : (p0 :: (pr ++ s)) = (p0 :: pr) ++ s := by simp
    rw [this, List.drop_left]
  rw [hdrop]
  exact removeAllAux_eq_removeAll (by simp)

theorem removeAll_suffix {p0 : Char} {pr : List Char} :
    ∀ {s : List Char}, p0 ∉ s →
      removeAll (p0 :: pr) (s ++ (p0 :: pr)) = s := by
  intro s
  induction s with
  | nil =>
    intro _
    have h1 : removeAll (p0 :: pr) ([] ++ (p0 :: pr)) =
        removeAll (p0 :: pr) ((p0 :: pr) ++ []) := by simp
    rw [h1, removeAll_strip (by simp)]
    rfl
  | cons c rest ih =>
    intro h
    have hc : p0 ≠ c := fun hc => h (hc ▸ List.mem_cons_self _ _)
    have hr : p0 ∉ rest := fun hr => h (List.mem_cons_of_mem _ hr)
    show removeAllAux (p0 :: pr) ((c :: rest) ++ (p0 :: pr)).length
      (c :: (rest ++ (p0 :: pr))) = c :: rest
    have hlen : ((c :: rest) ++ (p0 :: pr)).length =
        (rest ++ (p0 :: pr)).length + 1 := by simp
    rw [hlen]
    unfold removeAllAux
    have hpre : ¬ ((p0 :: pr) ≠ [] ∧
        (p0 :: pr).isPrefixOf (c :: (rest ++ (p0 :: pr)))) := by
      rintro ⟨_, hp⟩
      have hp' : (p0 == c && pr.isPrefixOf (rest ++ p0 :: pr)) = true := hp
      simp only [Bool.and_eq_true, beq_iff_eq] at hp'
      exact hc hp'.1
    rw [if_neg hpre]
    rw [removeAllAux_eq_removeAll le_rfl, ih hr]

/-- Stripping the wrapper from a built name recovers the body, provided
the body mentions neither the letter of `selle_` nor the dot of `.png`. -/
theorem baseName_encode {body : List Char}
    (hs : ( 's' ) ∉ body) (hdot : ( '.' ) ∉ body) :
    baseName (sellePat ++ body ++ pngPat) = body := by
  unfold baseName
  have h1 : sellePat ++ body ++ pngPat = sellePat ++ (body ++ pngPat) := by
    simp
  rw [h1, removeAll_strip (by decide)]
  have hsmem : ( 's' ) ∉ body ++ pngPat := by
    intro hmem
    rcases List.mem_append.mp hmem with h | h
    · exact hs h
    · revert h; decide
  have h2 : removeAll sellePat (body ++ pngPat) = body ++ pngPat := by
    show removeAll (( 's' ) :: "elle_".data) (body ++ pngPat) = body ++ pngPat
    exact removeAll_no_head hsmem
  rw [h2]
  show removeAll (( '.' ) :: "png".data) (body ++ (( '.' ) :: "png".data)) = body
  exact removeAll_suffix hdot

/-! Token-level lemmas for the codec round-trip (C4). -/

theorem digitChar_facts :
    ∀ d < 10, digitChar d ≠ ( '_' ) ∧ digitChar d ≠ ( '-' ) ∧
      digitChar d ≠ ( 's' ) ∧ digitChar d ≠ ( '.' ) := by decide

theorem parseInt_twoDigit_bounded :
    ∀ n < 100, parseInt (twoDigitChars n) = some (n : Int) := by decide

theorem parseInt_twoDigit {n : Nat} (h : n ≤ 99) :
    parseInt (twoDigitChars n) = some (n : Int) :=
  parseInt_twoDigit_bounded n (by omega)

theorem twoDigitChars_mem {n : Nat} (h : n ≤ 99) :
    ∀ c ∈ twoDigitChars n, ∃ d, d < 10 ∧ c = digitChar d := by
  intro c hc
  have h1 : n / 10 < 10 := by omega
  have h2 : n % 10 < 10 := Nat.mod_lt _ (by norm_num)
  rcases List.mem_cons.mp hc with h' | h'
  · exact ⟨n / 10, h1, h'⟩
  · rcases List.mem_cons.mp h' with h'' | h''
    · exact ⟨n % 10, h2, h''⟩
    · simp at h''

theorem tokenChars_mem {t : SpanToken} (hv : validToken t = true) :
    ∀ c ∈ tokenChars t, c = ( '-' ) ∨ ∃ d, d < 10 ∧ c = digitChar d := by
  intro c hc
  cases t with
  | single n =>
    have hb : n ≤ 99 := by
      simp only [validToken, decide_eq_true_eq] at hv
      exact hv.2
    exact Or.inr (twoDigitChars_mem hb c hc)
  | rng a b =>
    simp only [validToken, decide_eq_true_eq] at hv
    simp only [tokenChars, List.mem_append, List.mem_cons] at hc
    rcases hc with h | h | h
    · exact Or.inr (twoDigitChars_mem (by omega) c h)
    · exact Or.inl h
    · exact Or.inr (twoDigitChars_mem (by omega) c h)

theorem tokenChars_no_underscore {t : SpanToken} (hv : validToken t = true) :
    ( '_' ) ∉ tokenChars t := by
  intro h
  rcases tokenChars_mem hv _ h with h' | ⟨d, hd, h'⟩
  · exact absurd h'.symm (by decide)
  · exact (digitChar_facts d hd).1 h'.symm

theorem joinTokens_mem :
    ∀ {ts : List SpanToken}, (∀ t ∈ ts, validToken t = true) →
      ∀ c ∈ joinTokens ts,
        c = ( '_' ) ∨ c = ( '-' ) ∨ ∃ d, d < 10 ∧ c = digitChar d := by
  intro ts
  induction ts with
  | nil => intro _ c hc; simp [joinTokens] at hc
  | cons t rest ih =>
    intro hv c hc
    cases rest with
    | nil =>
      have := tokenChars_mem (hv t (List.mem_cons_self _ _)) c hc
      tauto
    | cons t' rest' =>
      have hj : joinTokens (t :: t' :: rest') =
          tokenChars t ++ ( '_' ) :: joinTokens (t' :: rest') := rfl
      rw [hj] at hc
      rcases List.mem_append.mp hc with h | h
      · have := tokenChars_mem (hv t (List.mem_cons_self _ _)) c h
        tauto
      · rcases List.mem_cons.mp h with h' | h'
        · exact Or.inl h'
        · exact ih (fun u hu => hv u (List.mem_cons_of_mem _ hu)) c h'

theorem joinTokens_no_s {ts : List SpanToken}
    (hv : ∀ t ∈ ts, validToken t = true) : ( 's' ) ∉ joinTokens ts := by
  intro h
  rcases joinTokens_mem hv _ h with h' | h' | ⟨d, hd, h'⟩
  · exact absurd h'.symm (by decide)
  · exact absurd h'.symm (by decide)
  · exact (digitChar_facts d hd).2.2.1 h'.symm

theorem joinTokens_no_dot {ts : List SpanToken}
    (hv : ∀ t ∈ ts, validToken t = true) : ( '.' ) ∉ joinTokens ts := by
  intro h
  rcases joinTokens_mem hv _ h with h' | h' | ⟨d, hd, h'⟩
  · exact absurd h'.symm (by decide)
  · exact absurd h'.symm (by decide)
  · exact (digitChar_facts d hd).2.2.2 h'.symm

theorem splitOnChar_joinTokens :
    ∀ {ts : List SpanToken}, ts ≠ [] →
      (∀ t ∈ ts, validToken t = true) →
      splitOnChar ( '_' ) (joinTokens ts) = ts.map tokenChars := by
  intro ts
  induction ts with
  | nil => intro h _; exact absurd rfl h
  | cons t rest ih =>
    intro _ hv
    cases rest with
    | nil =>
      show splitOnChar ( '_' ) (tokenChars t) = [tokenChars t]
      exact splitOnChar_not_mem (tokenChars_no_underscore (hv t (List.mem_cons_self _ _)))
    | cons t' rest' =>
      have hj : joinTokens (t :: t' :: rest') =
          tokenChars t ++ ( '_' ) :: joinTokens (t' :: rest') := rfl
      rw [hj,
        splitOnChar_append (tokenChars_no_underscore (hv t (List.mem_cons_self _ _))),
        ih (by simp) (fun u hu => hv u (List.mem_cons_of_mem _ hu))]
      rfl

theorem twoDigitChars_no_hyphen {n : Nat} (h : n ≤ 99) :
    ( '-' ) ∉ twoDigitChars n := by
  intro hc
  obtain ⟨d, hd, h'⟩ := twoDigitChars_mem h _ hc
  exact (digitChar_facts d hd).2.1 h'.symm

theorem parsePart_token {t : SpanToken} (hv : validToken t = true) :
    parsePart (tokenChars t) = some (expandToken t) := by
  cases t with
  | single n =>
    simp only [validToken, decide_eq_true_eq] at hv
    show parsePart (twoDigitChars n) = some [(n : Int)]
    unfold parsePart
    rw [if_neg (twoDigitChars_no_hyphen hv.2)]
    rw [parseInt_twoDigit hv.2]
    rfl
  | rng a b =>
    simp only [validToken, decide_eq_true_eq] at hv
    show parsePart (twoDigitChars a ++ ( '-' ) :: twoDigitChars b) =
      some (intRange (a : Int) (b : Int))
    unfold parsePart
    have hmem : ( '-' ) ∈ twoDigitChars a ++ ( '-' ) :: twoDigitChars b := by
      simp
    rw [if_pos hmem]
    rw [splitOnChar_append (twoDigitChars_no_hyphen (by omega)),
      splitOnChar_not_mem (twoDigitChars_no_hyphen (by omega))]
    show (match parseInt (twoDigitChars a), parseInt (twoDigitChars b) with
      | some s, some e => some (intRange s e)
      | _, _ => none) = some (intRange (a : Int) (b : Int))
    rw [parseInt_twoDigit (by omega : a ≤ 99), parseInt_twoDigit (by omega : b ≤ 99)]

theorem partsTeeth_map {ts : List SpanToken}
    (hv : ∀ t ∈ ts, validToken t = true) :
    partsTeeth (ts.map tokenChars) = some (expandList ts) := by
  induction ts with
  | nil => rfl
  | cons t rest ih =>
    simp only [List.map_cons, partsTeeth,
      parsePart_token (hv t (List.mem_cons_self _ _)),
      ih (fun u hu => hv u (List.mem_cons_of_mem _ hu))]
    rfl

theorem mem_intRange {a b m : Int} : m ∈ intRange a b ↔ a ≤ m ∧ m ≤ b := by
  unfold intRange
  constructor
  · intro h
    obtain ⟨i, hi, hm⟩ := List.mem_map.mp h
    rw [List.mem_range] at hi
    omega
  · intro h
    refine List.mem_map.mpr ⟨(m - a).toNat, ?_, ?_⟩
    · rw [List.mem_range]; omega
    · omega

theorem expandToken_toFinset {t : SpanToken} (hv : validToken t = true) :
    (expandToken t).toFinset = tokenSet t := by
  cases t with
  | single n => simp [expandToken, tokenSet]
  | rng a b =>
    ext m
    simp [expandToken, tokenSet, mem_intRange, Finset.mem_Icc]

theorem expandList_toFinset {ts : List SpanToken}
    (hv : ∀ t ∈ ts, validToken t = true) :
    (expandList ts).toFinset = intendedSet ts := by
  induction ts with
  | nil => rfl
  | cons t rest ih =>
    show (expandToken t ++ expandList rest).toFinset = _
    rw [List.toFinset_append, expandToken_toFinset (hv t (List.mem_cons_self _ _)),
      ih (fun u hu => hv u (List.mem_cons_of_mem _ hu))]
    rfl

/-- C4: the codec round-trip.  Any name built from a non-empty list of
well-formed tokens (two-digit singles, ascending two-digit ranges) parses
to exactly the intended tooth-number set. -/
theorem codec_round_trip {ts : List SpanToken} (hne : ts ≠ [])
    (hv : ∀ t ∈ ts, validToken t = true) :
    ∃ l, extractTeeth (encodeName ts) = some l ∧ l.toFinset = intendedSet ts := by
  refine ⟨expandList ts, ?_, expandList_toFinset hv⟩
  unfold extractTeeth encodeName
  rw [baseName_encode (joinTokens_no_s hv) (joinTokens_no_dot hv),
    splitOnChar_joinTokens hne hv]
  exact partsTeeth_map hv

/-- Witness for C4 at the concrete name `selle_38_45-48.png` from the
spec: it parses to exactly {38, 45, 46, 47, 48}. -/
theorem codec_round_trip_witness :
    ∃ l, extractTeeth ("selle_38_45-48.png".data) = some l ∧
      l.toFinset = ({38, 45, 46, 47, 48} : Finset Int) := by
  obtain ⟨l, h1, h2⟩ :=
    @codec_round_trip [SpanToken.single 38, SpanToken.rng 45 48]
      (by decide) (by decide)
  have he : encodeName [SpanToken.single 38, SpanToken.rng 45 48] =
      "selle_38_45-48.png".data := by decide
  have hi : intendedSet [SpanToken.single 38, SpanToken.rng 45 48] =
      ({38, 45, 46, 47, 48} : Finset Int) := by decide
  rw [he] at h1
  rw [hi] at h2
  exact ⟨l, h1, h2⟩

/-! The greedy loop on a catalog whose valid candidates tile the absent
set with pairwise-disjoint non-empty spans (C5). -/

theorem greedyLoop_tiling {hidden_teeth : List Int}
    {V : List (String × Finset Int)}
    (hnd : hidden_teeth.Nodup)
    (hdisjV : V.Pairwise (fun p q => Disjoint p.2 q.2))
    (hnonempty : ∀ p ∈ V, p.2 ≠ ∅)
    (hnames : (V.map Prod.fst).Nodup)
    (hsubA : ∀ p ∈ V, p.2 ⊆ hidden_teeth.toFinset)
    (hunion : foldUnion (V.map Prod.snd) = hidden_teeth.toFinset) :
    ∀ (n : Nat) (chosen : List (String × Finset Int)) (fuel : Nat),
      chosen.Subperm V →
      V.length - chosen.length = n →
      n ≤ fuel →
      (greedyLoop hidden_teeth.length V fuel chosen
        (foldUnion (chosen.map Prod.snd))).Perm V := by
  intro n
  induction n with
  | zero =>
    intro chosen fuel hsub hlen _
    have hlenle := hsub.length_le
    have hperm : chosen.Perm V := hsub.perm_of_length_le (by omega)
    have hcov : foldUnion (chosen.map Prod.snd) = hidden_teeth.toFinset := by
      rw [foldUnion_perm (hperm.map Prod.snd), hunion]
    have hcard : (foldUnion (chosen.map Prod.snd)).card = hidden_teeth.length := by
      rw [hcov, List.toFinset_card_of_nodup hnd]
    cases fuel with
    | zero => exact hperm
    | succ f =>
      show (greedyLoop _ V (f + 1) chosen _).Perm V
      unfold greedyLoop
      rw [if_neg (by omega)]
      exact hperm
  | succ n ih =>
    intro chosen fuel hsub hlen hfuel
    have hle : (chosen : Multiset (String × Finset Int)) ≤ (V : Multiset _) :=
      Multiset.coe_le.mpr hsub
    have hadd : (chosen : Multiset (String × Finset Int)) +
        ((V : Multiset _) - (chosen : Multiset _)) = (V : Multiset _) := by
      rw [add_comm]
      exact tsub_add_cancel_of_le hle
    have hcardM : Multiset.card ((V : Multiset (String × Finset Int)) -
        (chosen : Multiset _)) = V.length - chosen.length := by
      rw [Multiset.card_sub hle, Multiset.coe_card, Multiset.coe_card]
    have hrestcoe := Multiset.coe_toList
      ((V : Multiset (String × Finset Int)) - (chosen : Multiset _))
    have happ : (chosen ++ ((V : Multiset (String × Finset Int)) -
        (chosen : Multiset _)).toList).Perm V := by
      rw [← Multiset.coe_eq_coe, ← Multiset.coe_add, hrestcoe, hadd]
    have hrestne : ((V : Multiset (String × Finset Int)) -
        (chosen : Multiset _)).toList ≠ [] := by
      intro h0
      have : Multiset.card ((V : Multiset (String × Finset Int)) -
          (chosen : Multiset _)) = 0 := by
        rw [← hrestcoe, h0]
        rfl
      omega
    obtain ⟨q, hq⟩ := List.exists_mem_of_ne_nil _ hrestne
    have hqV : q ∈ V := happ.mem_iff.mp (List.mem_append_right chosen hq)
    have hpw : (chosen ++ ((V : Multiset (String × Finset Int)) -
        (chosen : Multiset _)).toList).Pairwise (fun p q => Disjoint p.2 q.2) :=
      (happ.pairwise_iff (fun h => h.symm)).mpr hdisjV
    obtain ⟨_, _, hcross⟩ := List.pairwise_append.mp hpw
    have hdisjcov : Disjoint q.2 (foldUnion (chosen.map Prod.snd)) := by
      rw [Finset.disjoint_left]
      intro x hxq hxcov
      obtain ⟨s, hs, hxs⟩ := mem_foldUnion.mp hxcov
      obtain ⟨c, hc, hcs⟩ := List.mem_map.mp hs
      rw [← hcs] at hxs
      exact (Finset.disjoint_left.mp (hcross c hc q hq)) hxs hxq
    have hq2pos : 0 < q.2.card :=
      Finset.card_pos.mpr (Finset.nonempty_iff_ne_empty.mpr (hnonempty q hqV))
    have hqpos : 0 < (q.2 \ foldUnion (chosen.map Prod.snd)).card := by
      rw [Finset.sdiff_eq_self_iff_disjoint.mpr hdisjcov]
      exact hq2pos
    have hnodupApp : ((chosen ++ ((V : Multiset (String × Finset Int)) -
        (chosen : Multiset _)).toList).map Prod.fst).Nodup :=
      ((happ.map Prod.fst).nodup_iff).mpr hnames
    rw [List.map_append] at hnodupApp
    obtain ⟨_, _, hdisjN⟩ := List.nodup_append.mp hnodupApp
    have hqnotin : q.1 ∉ chosen.map Prod.fst := by
      intro hmem
      exact hdisjN hmem (List.mem_map_of_mem Prod.fst hq)
    have hcovsub : foldUnion (chosen.map Prod.snd) ⊆ hidden_teeth.toFinset := by
      apply foldUnion_subset
      intro s hs
      obtain ⟨c, hc, hcs⟩ := List.mem_map.mp hs
      rw [← hcs]
      exact hsubA c (hsub.subset hc)
    have hcard_lt : (foldUnion (chosen.map Prod.snd)).card <
        hidden_teeth.length := by
      rw [← List.toFinset_card_of_nodup hnd]
      have hsubU : foldUnion (chosen.map Prod.snd) ∪ q.2 ⊆
          hidden_teeth.toFinset :=
        Finset.union_subset hcovsub (hsubA q hqV)
      have hcardU : (foldUnion (chosen.map Prod.snd) ∪ q.2).card =
          (foldUnion (chosen.map Prod.snd)).card + q.2.card :=
        Finset.card_union_of_disjoint hdisjcov.symm
      have h1 := Finset.card_le_card hsubU
      omega
    obtain ⟨f, rfl⟩ : ∃ f, fuel = f + 1 := ⟨fuel - 1, by omega⟩
    show (greedyLoop _ V (f + 1) chosen _).Perm V
    unfold greedyLoop
    rw [if_pos hcard_lt]
    cases hpick : (pickBest V (chosen.map Prod.fst)
        (foldUnion (chosen.map Prod.snd))).1 with
    | none =>
      exfalso
      have := pickBest_none_spec hpick q hqV hqnotin
      omega
    | some p =>
      obtain ⟨hpV, hpnotin, _⟩ := pickBest_some_spec hpick
      have hpnotmem : p ∉ chosen := fun hmem =>
        hpnotin (List.mem_map_of_mem Prod.fst hmem)
      have hpin_rest : p ∈ (V : Multiset (String × Finset Int)) -
          (chosen : Multiset (String × Finset Int)) := by
        have hcV : 0 < Multiset.count p (V : Multiset (String × Finset Int)) :=
          Multiset.count_pos.mpr (Multiset.mem_coe.mpr hpV)
        have hcC : Multiset.count p (chosen : Multiset (String × Finset Int)) = 0 :=
          Multiset.count_eq_zero.mpr (fun h => hpnotmem (Multiset.mem_coe.mp h))
        have hcnt : Multiset.count p ((chosen : Multiset (String × Finset Int)) +
            ((V : Multiset (String × Finset Int)) -
              (chosen : Multiset (String × Finset Int)))) =
            Multiset.count p (V : Multiset (String × Finset Int)) := by rw [hadd]
        rw [Multiset.count_add, hcC] at hcnt
        exact Multiset.count_pos.mp (by omega)
      have hsub' : (chosen ++ [p]).Subperm V := by
        rw [← Multiset.coe_le, ← Multiset.coe_add]
        have h1 : (([p] : List (String × Finset Int)) : Multiset (String × Finset Int)) ≤
            (V : Multiset (String × Finset Int)) -
              (chosen : Multiset (String × Finset Int)) := by
          rw [Multiset.coe_singleton]
          exact Multiset.singleton_le.mpr hpin_rest
        calc (chosen : Multiset (String × Finset Int)) + ↑[p]
            ≤ ↑chosen + ((V : Multiset (String × Finset Int)) -
                (chosen : Multiset (String × Finset Int))) :=
              add_le_add_left h1 _
          _ = ↑V := hadd
      have hlen' : V.length - (chosen ++ [p]).length = n := by
        have h1 := hsub.length_le
        have h2 : (chosen ++ [p]).length = chosen.length + 1 := by simp
        omega
      have hrec := ih (chosen ++ [p]) f hsub' hlen' (by omega)
      have hcov' : foldUnion ((chosen ++ [p]).map Prod.snd) =
          foldUnion (chosen.map Prod.snd) ∪ p.2 := by
        rw [List.map_append]
        exact foldUnion_append_singleton _ _
      rw [hcov'] at hrec
      exact hrec

/-- C5 counterexample: the absent set {31, 32, 33, 34} is exactly
partitioned by the catalog entries `selle_31-32.png` and
`selle_33-34.png` (disjoint spans, verbatim present, union = absent set),
yet the resolver returns a different cover, because the greedy step first
grabs the overlapping candidate `selle_32-34.png`, which is not part of
the partition. -/
theorem greedy_disjoint_tiling_cex :
    find_matching_selles rosterInf [31, 32, 33, 34]
        ["selle_32-34.png", "selle_31-32.png", "selle_33-34.png"] =
      some ["selle_32-34.png", "selle_31-32.png"] ∧
    parsedSpan ("selle_31-32.png") = some ({31, 32} : Finset Int) ∧
    parsedSpan ("selle_33-34.png") = some ({33, 34} : Finset Int) ∧
    ({31, 32} : Finset Int) ∩ ({33, 34} : Finset Int) = ∅ ∧
    ({31, 32} : Finset Int) ∪ ({33, 34} : Finset Int) =
      ([31, 32, 33, 34] : List Int).toFinset ∧
    ("selle_32-34.png" : String) ∉ ["selle_31-32.png", "selle_33-34.png"] :=
  ⟨by decide, by decide, by decide, by decide, by decide, by decide⟩

/-- C5 amended: if the valid candidates (wrapped entries whose span is a
subset of the absent set) are exactly the partition's entries — with
pairwise-disjoint non-empty spans, distinct names, and union equal to the
absent set — and more than two teeth stay present and no candidate name
is denylisted, then the resolver returns exactly the partition's entries,
possibly reordered. -/
theorem greedy_disjoint_tiling {roster hidden_teeth : List Int}
    {available : List String} {parsed V : List (String × Finset Int)}
    (hnd : hidden_teeth.Nodup) (hne : hidden_teeth ≠ [])
    (hcp : collectParsed (available.filter wrappedB) = some parsed)
    (hV : validCandidates hidden_teeth.toFinset parsed = V)
    (hdisjV : V.Pairwise (fun p q => Disjoint p.2 q.2))
    (hnonempty : ∀ p ∈ V, p.2 ≠ ∅)
    (hnames : (V.map Prod.fst).Nodup)
    (hunion : foldUnion (V.map Prod.snd) = hidden_teeth.toFinset)
    (hsupp : 2 < (roster.length : Int) - (hidden_teeth.toFinset.card : Int))
    (hdeny : ∀ p ∈ V, deniedName p.1 = false) :
    ∃ R, find_matching_selles roster hidden_teeth available = some R ∧
      R.Perm (V.map Prod.fst) := by
  have hsubA : ∀ p ∈ V, p.2 ⊆ hidden_teeth.toFinset := by
    intro p hp
    rw [← hV] at hp
    exact (mem_validCandidates hp).2
  have hsymm : Symmetric (fun p q : String × Finset Int => Disjoint p.2 q.2) :=
    fun _ _ h => h.symm
  cases hfind : V.find? (fun p => decide (p.2 = hidden_teeth.toFinset)) with
  | some p =>
    have hpV := List.mem_of_find?_eq_some hfind
    have hpa : p.2 = hidden_teeth.toFinset := by
      have h1 := List.find?_some hfind
      simpa using h1
    have hall : ∀ q ∈ V, q = p := by
      intro q hq
      by_contra hqp
      have hdis : Disjoint q.2 p.2 :=
        List.Pairwise.forall hsymm hdisjV hq hpV hqp
      have hqsub : q.2 ⊆ hidden_teeth.toFinset := hsubA q hq
      have hqe : q.2 = ∅ := Finset.eq_empty_of_forall_not_mem (fun x hx =>
        (Finset.disjoint_left.mp hdis hx) (hpa ▸ hqsub hx))
      exact hnonempty q hq hqe
    have hVsingle : V = [p] := by
      cases hVv : V with
      | nil => rw [hVv] at hpV; simp at hpV
      | cons v vs =>
        have hv : v = p := hall v (hVv ▸ List.mem_cons_self _ _)
        cases hvs : vs with
        | nil => rw [hv]
        | cons w ws =>
          exfalso
          have hw : w = p := hall w (by
            rw [hVv, hvs]
            exact List.mem_cons_of_mem _ (List.mem_cons_self _ _))
          have hnd2 := hnames
          rw [hVv, hvs] at hnd2
          simp only [List.map_cons, List.nodup_cons] at hnd2
          exact hnd2.1 (by
            rw [hv, hw]
            exact List.mem_cons_self _ _)
    refine ⟨[p.1], ?_, ?_⟩
    · unfold find_matching_selles
      rw [if_neg hne, hcp]
      simp only [hV, hfind]
    · rw [hVsingle]
      exact List.Perm.refl _
  | none =>
    have hVne : V ≠ [] := by
      intro h0
      have he : hidden_teeth.toFinset = ∅ := by
        rw [← hunion, h0]
        rfl
      rw [List.toFinset_eq_empty_iff] at he
      exact hne he
    have hgp : (greedyResult hidden_teeth.length V).Perm V := by
      have h := greedyLoop_tiling hnd hdisjV hnonempty hnames hsubA hunion
        V.length [] (V.length + 1) List.nil_subperm (by simp) (by omega)
      exact h
    have hchne : greedyResult hidden_teeth.length V ≠ [] := by
      intro h0
      rw [h0] at hgp
      exact hVne (hgp.symm.eq_nil)
    have hcovered : foldUnion ((greedyResult hidden_teeth.length V).map
        Prod.snd) = hidden_teeth.toFinset := by
      rw [foldUnion_perm (hgp.map Prod.snd), hunion]
    have hanyf : (greedyResult hidden_teeth.length V).any
        (fun p => deniedName p.1) = false := by
      rw [List.any_eq_false]
      intro p hp
      rw [hdeny p (hgp.mem_iff.mp hp)]
      simp
    refine ⟨(greedyResult hidden_teeth.length V).map Prod.fst, ?_, ?_⟩
    · unfold find_matching_selles
      rw [if_neg hne, hcp]
      simp only [hV, hfind]
      unfold validityGate
      rw [if_neg hchne, if_neg (not_le.mpr hsupp)]
      rw [if_neg (by rw [hanyf]; exact Bool.false_ne_true)]
      rw [if_pos ⟨hcovered, by rw [hcovered]; exact Finset.sdiff_self _⟩]
    · exact hgp.map Prod.fst

/-- Witness for the amended C5: the catalog holds exactly the two
partition entries for the absent set {31, 32, 33, 34}; the resolver
returns them (in some order). -/
theorem greedy_disjoint_tiling_witness :
    ∃ R, find_matching_selles rosterInf [31, 32, 33, 34]
        ["selle_31-32.png", "selle_33-34.png"] = some R ∧
      R.Perm ["selle_31-32.png", "selle_33-34.png"] := by
  obtain ⟨R, h1, h2⟩ := @greedy_disjoint_tiling rosterInf [31, 32, 33, 34]
    ["selle_31-32.png", "selle_33-34.png"]
    [("selle_31-32.png", ({31, 32} : Finset Int)),
      ("selle_33-34.png", ({33, 34} : Finset Int))]
    [("selle_31-32.png", ({31, 32} : Finset Int)),
      ("selle_33-34.png", ({33, 34} : Finset Int))]
    (by decide) (by decide) (by decide) (by decide)
    (by
      refine List.Pairwise.cons ?_ ?_
      · intro q hq
        rw [List.mem_singleton.mp hq]
        decide
      · exact List.pairwise_singleton _ _)
    (by decide) (by decide) (by decide) (by decide) (by decide)
  exact ⟨R, h1, h2⟩

end PPA
